import Mathlib

/-!
Verification of the local-cache / coordination core of the `streaming`
repository against its specification.

The development shallowly embeds the Python sources:

* `streaming/base/shared/prefix.py` — the registration-record wire format
  (`_pack_locals` / `_unpack_locals`) and the shared-prefix allocation
  protocol (`get_shm_prefix`).
* `streaming/format/base/file.py` — the `ShardFile` multi-phase lifecycle
  (`load`, `_unzip`, `_canonicalize`, `_load_raw`, `validate`, `init_dir`,
  `evict`, `evict_phases`).
* `streaming/format/base/writer/dual_row.py` — `DualRowWriter.flush_shard`.

Python strings are modelled at the byte level: each directory name is a
`List Byte` standing for its UTF-8 encoding.  This is faithful because UTF-8
is injective, the NUL byte 0x00 occurs in an encoding exactly when the string
contains U+0000, and Python's code-point string order agrees with
lexicographic order on UTF-8 byte strings.  Effectful code is embedded as
explicit state passing plus an event trace; file contents are tracked by
their byte length, which is the only attribute any checked property reads.
-/

/-- A byte, the unit of all the wire formats here. -/
abbrev Byte := Fin 256

/-- A byte string: the UTF-8 encoding of a Python `str`. -/
abbrev Bstr := List Byte

/-- `np.int32(n).tobytes()`: the 4 little-endian bytes of `n`
(prefix.py line 34; sizes stay far below 2^31 in every use). -/
def encodeInt32LE (n : Nat) : List Byte :=
  [(n : Byte), ((n / 256 : Nat) : Byte), ((n / 65536 : Nat) : Byte),
    ((n / 16777216 : Nat) : Byte)]

/-- `np.frombuffer(data[:4], np.int32)[0]` read back as a natural number
(prefix.py line 46; the sign bit is never set in any use). -/
def decodeInt32LE (l : List Byte) : Nat :=
  match l with
  | [b0, b1, b2, b3] => b0.val + 256 * b1.val + 65536 * b2.val + 16777216 * b3.val
  | _ => 0

/-- Python string `<=` restricted to byte strings: lexicographic order on the
UTF-8 bytes, which agrees with Python's code-point comparison. -/
def bleLex : Bstr → Bstr → Bool
  | [], _ => true
  | _ :: _, [] => false
  | a :: as, b :: bs => if a < b then true else if b < a then false else bleLex as bs

/-- `_pack_locals` (prefix.py lines 22-34): NUL-join the sorted dirnames and
prepend the 4-byte little-endian length of header plus payload. -/
def _pack_locals (dirnames : List Bstr) : List Byte :=
  let text := List.intercalate [0] (dirnames.mergeSort bleLex)
  encodeInt32LE (4 + text.length) ++ text

/-- `_unpack_locals` (prefix.py lines 37-48): read the length prefix, slice
`data[4:size]`, split on NUL.  The result is read as a set (`toFinset`) just
as the Python returns `set(text.split('\0'))`. -/
def _unpack_locals (data : List Byte) : List Bstr :=
  let size := decodeInt32LE (data.take 4)
  ((data.take size).drop 4).splitOn 0

/-! ### Shared-prefix allocation protocol (prefix.py, `get_shm_prefix`)

The shared-memory registry is modelled as the contiguous list of registration
records reachable from slot 0: `SharedMemory(name, False)` (attach) succeeds
exactly on the slots of this list and fails on the first missing one, which is
how the Python walk terminates.  Distributed state is reduced to the observable
inputs: whether this process is the local leader, the rank count (the first
barrier runs only when `1 < world.num_ranks`), and whether torch.distributed
was already initialized by the caller (the second barrier runs whenever dist is
initialized at that point).  Shm reads/creates and barriers are logged as
events so that "fails fast before any record is read or any barrier is
crossed" is a statement about the trace. -/

/-- Errors raised by `get_shm_prefix` (prefix.py lines 67, 85, 112, 92):
duplicate dir within our own set, overlap with another group's registered set,
the non-leader exhausting existing slots, and the leader's create failing
because every slot of the scan range exists. -/
inductive PErr where
  | duplicateLocalDir : PErr
  | reusedLocalDir : PErr
  | internalError : PErr
  | createFailed : PErr
deriving DecidableEq

/-- Observable effects of `get_shm_prefix`: attaching to a record slot,
creating a record slot, crossing a distributed barrier. -/
inductive PEv where
  | attach : Nat → PEv
  | create : Nat → PEv
  | barrier : PEv
deriving DecidableEq

/-- The machine-wide shm registry: record payloads at slots `0, 1, …`. -/
structure ShmWorld where
  regs : List (List Byte)
deriving DecidableEq

/-- The duplicate check of prefix.py lines 64-68: walk `my_locals` keeping the
set seen so far, returning the first dirname already seen. -/
def firstDupGo : List Bstr → Finset Bstr → Option Bstr
  | [], _ => none
  | d :: rest, seen => if d ∈ seen then some d else firstDupGo rest (insert d seen)

/-- First reused local directory of the argument list, if any. -/
def firstDup (l : List Bstr) : Option Bstr :=
  firstDupGo l ∅

/-- `f'\x7bprefix_int:06\x7d'`: the 6-digit zero-padded namespace string. -/
def prefixStr (n : Nat) : String :=
  let s := toString n
  String.mk (List.replicate (6 - s.length) '0') ++ s

/-- Leader walk of prefix.py lines 75-86 from slot `i`: attach to each
existing record, fail on a local-directory overlap with our set, stop at the
first missing slot, which becomes the candidate.  If all 10^6 slots of the
scan range exist, the later `SharedMemory(name, True, …)` on the occupied
candidate `999999` fails. -/
def leaderScanGo (myset : Finset Bstr) : List (List Byte) → Nat → Except PErr Nat × List PEv
  | [], i => (if i = 1000000 then .error .createFailed else .ok i, [])
  | r :: rest, i =>
    if ((_unpack_locals r).toFinset ∩ myset).Nonempty then
      (.error .reusedLocalDir, [PEv.attach i])
    else
      let rec2 := leaderScanGo myset rest (i + 1)
      (rec2.1, PEv.attach i :: rec2.2)

/-- Non-leader walk of prefix.py lines 106-115 from slot `i`: attach to each
existing record, accept the first whose decoded set equals ours, raise
`RuntimeError` when the attach fails (first missing slot).  If the loop runs
through all 10^6 slots without a match, Python falls out of the loop and the
call resolves `999999` with the last attached record. -/
def nonLeaderScanGo (myset : Finset Bstr) : List (List Byte) → Nat → Except PErr Nat × List PEv
  | [], i => (if i = 1000000 then .ok 999999 else .error .internalError, [])
  | r :: rest, i =>
    if (_unpack_locals r).toFinset = myset then
      (.ok i, [PEv.attach i])
    else
      let rec2 := nonLeaderScanGo myset rest (i + 1)
      (rec2.1, PEv.attach i :: rec2.2)

/-- `get_shm_prefix` (prefix.py lines 51-123).  Returns the resolved
`(prefix, slot)` (the slot stands for the attached shm handle), the registry
after the call, and the trace of shm/barrier effects.  Stage order follows the
source: duplicate check, leader scan-and-register, first barrier (only when
`1 < num_ranks`), non-leader scan, second barrier (whenever dist is
initialized, i.e. it was pre-initialized or this call initialized it). -/
def get_shm_prefix (my_locals : List Bstr) (isLeader : Bool) (numRanks : Nat)
    (distPreInit : Bool) (w : ShmWorld) :
    Except PErr (String × Nat) × ShmWorld × List PEv :=
  match firstDup my_locals with
  | some _ => (.error .duplicateLocalDir, w, [])
  | none =>
    let myset := my_locals.toFinset
    if isLeader then
      match leaderScanGo myset (w.regs.take 1000000) 0 with
      | (.error e, evs) => (.error e, w, evs)
      | (.ok slot, evs) =>
        let data := _pack_locals my_locals
        let w2 : ShmWorld := ⟨w.regs ++ [data]⟩
        (.ok (prefixStr slot, slot), w2,
          evs ++ [PEv.create slot]
            ++ (if 1 < numRanks then [PEv.barrier] else [])
            ++ (if distPreInit ∨ 1 < numRanks then [PEv.barrier] else []))
    else
      match nonLeaderScanGo myset (w.regs.take 1000000) 0 with
      | (.error e, evs) =>
        (.error e, w, (if 1 < numRanks then [PEv.barrier] else []) ++ evs)
      | (.ok slot, evs) =>
        (.ok (prefixStr slot, slot), w,
          (if 1 < numRanks then [PEv.barrier] else []) ++ evs
            ++ (if distPreInit ∨ 1 < numRanks then [PEv.barrier] else []))

/-! ### Shard file multi-phase lifecycle (file.py, `ShardFile`)

`ShardFile` (file.py) is embedded directly.  Its collaborators that are not
part of the staged sources — `ShardFilePhase` (phase.py), `Locality` and the
keep-phases policy (phaser.py), `StreamConf` — are modelled from the spec as
their doc comments state.  The local directory is the three slots a file's
phases can occupy; a slot holds the byte size of the file present there, and
`None` means absent.  File contents are tracked by length only, the one
attribute every checked property reads, so the external decompression and
canonicalization codecs become length oracles in the environment.  Every
operation returns `(Except error delta, directory, events)`: the directory
reached when an exception propagates mid-operation is the second component,
and downloads, codec invocations, policy applications and per-phase
deletions are logged as events. -/

/-- The three fixed phase slots of a shard file, in pipeline order. -/
inductive PhaseId where
  | zip : PhaseId
  | raw : PhaseId
  | can : PhaseId
deriving DecidableEq, Fintype

/-- The phases strictly after `p` in pipeline order. -/
def phasesAfter : PhaseId → List PhaseId
  | .zip => [.raw, .can]
  | .raw => [.can]
  | .can => []

/-- `Locality` (phaser.py): DNE for an unconfigured phase, REMOTE for a
configured phase not present locally, LOCAL for a present one. -/
inductive Locality where
  | DNE : Locality
  | REMOTE : Locality
  | LOCAL : Locality
deriving DecidableEq

/-- Modelled from the spec: `ShardFilePhase` (phase.py, not staged) carries
the expected size, optional until produced.  The expected hash and the path
are not read by any property checked here; which slot a phase occupies is
passed explicitly where the Python phase knows its own filename. -/
structure ShardFilePhase where
  size : Option Nat
deriving DecidableEq

/-- Modelled from the spec: the keep-phases spec names which phases must
remain resident after a transition. -/
structure KeepSpec where
  zip : Bool
  raw : Bool
  can : Bool
deriving DecidableEq

/-- Whether the keep-spec requires phase `p` to stay resident. -/
def KeepSpec.get : KeepSpec → PhaseId → Bool
  | k, .zip => k.zip
  | k, .raw => k.raw
  | k, .can => k.can

/-- Modelled from the spec: `get_phase_deletions` (phaser.py, not staged).
A LOCAL phase is flagged for deletion iff it is outside the keep-spec's
required set and some later kept phase is already LOCAL (each produced phase
is self-sufficient, so an earlier phase may go only once a kept later phase
is resident); DNE slots are never flagged.  This reproduces the spec's
examples: keep "canonical only" on [LOCAL, LOCAL, DNE] deletes nothing, and
on [LOCAL, LOCAL, LOCAL] deletes the first two. -/
def get_phase_deletions (k : KeepSpec) (locs : PhaseId → Locality) (p : PhaseId) : Bool :=
  (locs p == Locality.LOCAL) && !(k.get p)
    && (phasesAfter p).any fun q => k.get q && (locs q == Locality.LOCAL)

/-- Modelled from the spec: the slice of `StreamConf` that `ShardFile`
reads — the optional download size limit and the keep-phases policy. -/
structure StreamConf where
  download_max_size : Option Nat
  safe_keep_phases : KeepSpec
deriving DecidableEq

/-- `ShardFile` (file.py lines 72-86): up to three phases in fixed order
{compressed, raw, canonical}; raw is mandatory, the others optional. -/
structure ShardFile where
  stream : StreamConf
  zip_phase : Option ShardFilePhase
  zip_algo : Option String
  raw_phase : ShardFilePhase
  can_algo : Option String
  can_phase : Option ShardFilePhase
deriving DecidableEq

/-- `self.phases = zip_phase, raw_phase, can_phase` (file.py line 86), as a
lookup by slot. -/
def ShardFile.phaseAt : ShardFile → PhaseId → Option ShardFilePhase
  | f, .zip => f.zip_phase
  | f, .raw => some f.raw_phase
  | f, .can => f.can_phase

/-- The local directory: the byte size of the file in each phase slot,
`none` when absent. -/
structure FS where
  zipF : Option Nat
  rawF : Option Nat
  canF : Option Nat
deriving DecidableEq

/-- Size of the file at slot `p`. -/
def FS.get : FS → PhaseId → Option Nat
  | fs, .zip => fs.zipF
  | fs, .raw => fs.rawF
  | fs, .can => fs.canF

/-- The directory with slot `p` replaced. -/
def FS.set : FS → PhaseId → Option Nat → FS
  | fs, .zip, v => { fs with zipF := v }
  | fs, .raw, v => { fs with rawF := v }
  | fs, .can, v => { fs with canF := v }

/-- The external world: remote object sizes per slot (`none` = missing
object) and the byte-length behaviour of the decompression and
canonicalization codecs. -/
structure ShardEnv where
  remote : PhaseId → Option Nat
  decompressLen : Nat → Nat
  canonLen : Nat → Nat

/-- Exceptions of the lifecycle: `RemoteFetchError`, the `ValueError` size
mismatches, `SizeLimitExceeded`, `RuntimeError` internal-consistency
violations, and a failing filesystem read. -/
inductive SErr where
  | remoteFetch : SErr
  | sizeMismatch : SErr
  | sizeLimitExceeded : SErr
  | internal : SErr
  | ioError : SErr
deriving DecidableEq

/-- Observable effects of the lifecycle: downloading into a slot, invoking
the decompressor, invoking the canonicalizer, applying the eviction policy,
deleting the file at a slot. -/
inductive SEv where
  | download : PhaseId → SEv
  | unzip : SEv
  | canon : SEv
  | policy : SEv
  | evict : PhaseId → SEv
deriving DecidableEq

/-- Result of a lifecycle step: disk-usage delta or the exception that
escaped, the directory state reached, and the effect trace. -/
abbrev SRes := Except SErr Int × FS × List SEv

/-- Modelled from the spec: `ShardFilePhase.is_local` (phase.py), the
authoritative existence check of this phase's file. -/
def ShardFilePhase.is_local (_ph : ShardFilePhase) (fs : FS) (p : PhaseId) : Bool :=
  (fs.get p).isSome

/-- Modelled from the spec: `ShardFilePhase.download` (phase.py): remote to
local, atomic (temp + rename, so nothing is left on failure), failing with
`RemoteFetchError` on a missing object or a size mismatch against the
expected size; returns the bytes added. -/
def ShardFilePhase.download (ph : ShardFilePhase) (p : PhaseId) (env : ShardEnv)
    (fs : FS) : SRes :=
  match env.remote p with
  | none => (.error .remoteFetch, fs, [SEv.download p])
  | some n =>
    match ph.size with
    | some m =>
      if n = m then (.ok (n : Int), fs.set p (some n), [SEv.download p])
      else (.error .remoteFetch, fs, [SEv.download p])
    | none => (.ok (n : Int), fs.set p (some n), [SEv.download p])

/-- Modelled from the spec: `ShardFilePhase.evict` (phase.py): delete the
local file if present (idempotent no-op otherwise), returning the negated
freed bytes. -/
def ShardFilePhase.evict (_ph : ShardFilePhase) (fs : FS) (p : PhaseId) :
    Int × FS × List SEv :=
  match fs.get p with
  | some s => (-(s : Int), fs.set p none, [SEv.evict p])
  | none => (0, fs, [])

/-- Modelled from the spec: `ShardFilePhase.validate_for_download`
(phase.py): fail with `SizeLimitExceeded` iff the expected size exceeds the
configured maximum. -/
def ShardFilePhase.validate_for_download (ph : ShardFilePhase)
    (maxSize : Option Nat) : Except SErr Unit :=
  match maxSize, ph.size with
  | some mx, some sz => if mx < sz then .error .sizeLimitExceeded else .ok ()
  | _, _ => .ok ()

/-- Modelled from the spec: `ShardFilePhase.init_dir` (phase.py): reconcile
startup state, returning the contributed size if the file is present, else
0; never downloads.  A present zero-byte file contributes 0. -/
def ShardFilePhase.init_dir (_ph : ShardFilePhase) (fs : FS) (p : PhaseId) : Nat :=
  (fs.get p).getD 0

/-- `ShardFile.validate` (file.py lines 99-106).  In the source the `break`
stands outside the `if phase:` guard, so the single loop iteration examines
only `phases[0]` — the zip slot — and a file with no compressed phase has
nothing checked at all. -/
def ShardFile.validate (f : ShardFile) : Except SErr Unit :=
  match f.stream.download_max_size with
  | none => .ok ()
  | some _ =>
    match f.zip_phase with
    | some ph => ph.validate_for_download f.stream.download_max_size
    | none => .ok ()

/-- `ShardFile.locate` (file.py lines 108-125): LOCAL/REMOTE per configured
phase from the listing, DNE for unconfigured slots. -/
def ShardFile.locate (f : ShardFile) (fs : FS) (p : PhaseId) : Locality :=
  match f.phaseAt p with
  | some ph => if ph.is_local fs p then .LOCAL else .REMOTE
  | none => .DNE

/-- The walk of `ShardFile.evict_phases` (file.py lines 293-300) over
`zip(self.phases, phase_dels)`: unflagged slots are skipped, a flagged
unconfigured slot raises `RuntimeError` (leaving the deletions already made),
a flagged configured slot is evicted. -/
def evictPhasesGo (f : ShardFile) (dels : PhaseId → Bool) :
    List PhaseId → FS → SRes
  | [], fs => (.ok 0, fs, [])
  | p :: rest, fs =>
    if dels p then
      match f.phaseAt p with
      | none => (.error .internal, fs, [])
      | some ph =>
        match ph.evict fs p with
        | (d, fs2, tr) =>
          match evictPhasesGo f dels rest fs2 with
          | (out, fs3, tr2) => (out.map fun d2 => d + d2, fs3, tr ++ tr2)
    else evictPhasesGo f dels rest fs

/-- `ShardFile.evict_phases` (file.py lines 287-300). -/
def ShardFile.evict_phases (f : ShardFile) (dels : PhaseId → Bool) (fs : FS) : SRes :=
  evictPhasesGo f dels [.zip, .raw, .can] fs

/-- The loop of `ShardFile.evict` (file.py lines 281-285) over the
configured phases. -/
def evictAllGo (f : ShardFile) : List PhaseId → FS → Int × FS × List SEv
  | [], fs => (0, fs, [])
  | p :: rest, fs =>
    match f.phaseAt p with
    | none => evictAllGo f rest fs
    | some ph =>
      match ph.evict fs p with
      | (d, fs2, tr) =>
        match evictAllGo f rest fs2 with
        | (d2, fs3, tr2) => (d + d2, fs3, tr ++ tr2)

/-- `ShardFile.evict` (file.py lines 275-285): delete every present phase. -/
def ShardFile.evict (f : ShardFile) (fs : FS) : Int × FS × List SEv :=
  evictAllGo f [.zip, .raw, .can] fs

/-- The locality vector file.py lines 194-199 collects after the raw write:
zip and raw are LOCAL, canonical is probed (DNE if unconfigured). -/
def unzipLocs (f : ShardFile) (fs2 : FS) : PhaseId → Locality := fun p =>
  match p with
  | .zip => .LOCAL
  | .raw => .LOCAL
  | .can =>
    match f.can_phase with
    | some cp => if cp.is_local fs2 .can then .LOCAL else .REMOTE
    | none => .DNE

/-- `ShardFile._unzip` (file.py lines 161-205): require zip metadata, read
the local compressed file, check its length against the declared compressed
size (`ValueError` otherwise, before anything is written), decompress, check
the result length against the declared raw size, write the raw file
atomically (temp + rename), then recompute all three localities, apply the
eviction policy and delete the flagged phases.  A `None` declared size also
raises in the source (the comparison `len != None` is true). -/
def ShardFile._unzip (f : ShardFile) (env : ShardEnv) (fs : FS) : SRes :=
  match f.zip_phase with
  | none => (.error .internal, fs, [])
  | some zp =>
    match fs.get .zip with
    | none => (.error .ioError, fs, [])
    | some zlen =>
      if zp.size = some zlen then
        if f.raw_phase.size = some (env.decompressLen zlen) then
          match ShardFile.evict_phases f
              (get_phase_deletions f.stream.safe_keep_phases
                (unzipLocs f (fs.set .raw (some (env.decompressLen zlen)))))
              (fs.set .raw (some (env.decompressLen zlen))) with
          | (out, fs3, tr) =>
            (out.map fun d => ((env.decompressLen zlen : Nat) : Int) + d, fs3,
              [SEv.unzip, SEv.policy] ++ tr)
        else (.error .sizeMismatch, fs, [SEv.unzip])
      else (.error .sizeMismatch, fs, [])

/-- The locality vector file.py lines 229-234 collects after
canonicalization: zip is probed (DNE if unconfigured), raw and canonical are
LOCAL. -/
def canonLocs (f : ShardFile) (fs2 : FS) : PhaseId → Locality := fun p =>
  match p with
  | .zip =>
    match f.zip_phase with
    | some zp => if zp.is_local fs2 .zip then .LOCAL else .REMOTE
    | none => .DNE
  | .raw => .LOCAL
  | .can => .LOCAL

/-- `ShardFile._canonicalize` (file.py lines 207-240): require canonical
metadata, run the canonicalizer from the raw path onto the canonical path,
check the resulting on-disk size against the declared size when one is
declared (the produced file stays on failure), then recompute all three
localities, apply the eviction policy and delete the flagged phases. -/
def ShardFile._canonicalize (f : ShardFile) (env : ShardEnv) (fs : FS) : SRes :=
  match f.can_algo, f.can_phase with
  | some _, some cp =>
    match fs.get .raw with
    | none => (.error .ioError, fs, [])
    | some rlen =>
      if (match cp.size with
          | some m => env.canonLen rlen == m
          | none => true) then
        match ShardFile.evict_phases f
            (get_phase_deletions f.stream.safe_keep_phases
              (canonLocs f (fs.set .can (some (env.canonLen rlen)))))
            (fs.set .can (some (env.canonLen rlen))) with
        | (out, fs3, tr) =>
          (out.map fun d => ((env.canonLen rlen : Nat) : Int) + d, fs3,
            [SEv.canon, SEv.policy] ++ tr)
      else (.error .sizeMismatch, fs.set .can (some (env.canonLen rlen)),
        [SEv.canon])
  | _, _ => (.error .internal, fs, [])

/-- `ShardFile._load_raw` (file.py lines 242-258): nothing to do when raw is
already local; else decompress a local zip, or download the zip and
decompress, or download raw directly when no zip phase is configured. -/
def ShardFile._load_raw (f : ShardFile) (env : ShardEnv) (fs : FS) : SRes :=
  if f.raw_phase.is_local fs .raw then (.ok 0, fs, [])
  else
    match f.zip_phase with
    | some zp =>
      if zp.is_local fs .zip then ShardFile._unzip f env fs
      else
        match zp.download .zip env fs with
        | (.error e, fs2, tr) => (.error e, fs2, tr)
        | (.ok d, fs2, tr) =>
          match ShardFile._unzip f env fs2 with
          | (out, fs3, tr2) => (out.map fun d2 => d + d2, fs3, tr ++ tr2)
    | none => f.raw_phase.download .raw env fs

/-- `ShardFile.load` (file.py lines 260-273): no-op when the terminal
configured phase (canonical if configured, else raw) is already local; else
materialize raw, then canonicalize when a canonical phase is configured. -/
def ShardFile.load (f : ShardFile) (env : ShardEnv) (fs : FS) : SRes :=
  match f.can_phase with
  | some cp =>
    if cp.is_local fs .can then (.ok 0, fs, [])
    else
      match ShardFile._load_raw f env fs with
      | (.error e, fs2, tr) => (.error e, fs2, tr)
      | (.ok d, fs2, tr) =>
        match ShardFile._canonicalize f env fs2 with
        | (out, fs3, tr2) => (out.map fun d2 => d + d2, fs3, tr ++ tr2)
  | none => ShardFile._load_raw f env fs

/-- The per-phase locality computed by `ShardFile.init_dir` (file.py lines
139-150): a configured phase is LOCAL iff its `init_dir` contribution is
nonzero (`if phase_du:`), REMOTE otherwise; DNE when unconfigured. -/
def ShardFile.initLoc (f : ShardFile) (fs : FS) (p : PhaseId) : Locality :=
  match f.phaseAt p with
  | some ph => if ph.init_dir fs p ≠ 0 then .LOCAL else .REMOTE
  | none => .DNE

/-- The usage collected by `ShardFile.init_dir` before evictions. -/
def ShardFile.initDu (f : ShardFile) (fs : FS) : Nat :=
  ([PhaseId.zip, PhaseId.raw, PhaseId.can].map fun p =>
    match f.phaseAt p with
    | some ph => ph.init_dir fs p
    | none => 0).sum

/-- `ShardFile.init_dir` (file.py lines 127-159): collect usage and
locality per phase, apply the eviction policy once, delete flagged phases,
return the net usage. -/
def ShardFile.init_dir (f : ShardFile) (fs : FS) : SRes :=
  let dels := get_phase_deletions f.stream.safe_keep_phases (f.initLoc fs)
  match ShardFile.evict_phases f dels fs with
  | (out, fs2, tr) =>
    (out.map fun d => (f.initDu fs : Int) + d, fs2, SEv.policy :: tr)

/-- True when every decompression and canonicalization event is immediately
followed by an eviction-policy application. -/
def policyFollows : List SEv → Bool
  | [] => true
  | SEv.unzip :: rest =>
    match rest with
    | SEv.policy :: _ => policyFollows rest
    | _ => false
  | SEv.canon :: rest =>
    match rest with
    | SEv.policy :: _ => policyFollows rest
    | _ => false
  | _ :: rest => policyFollows rest

/-! ### Dual-shard writer upload pipeline (dual_row.py, `flush_shard`)

`DualRowWriter.flush_shard` is embedded directly; the `RowWriter` plumbing it
uses (the shared failure event set by `exception_callback`, the executor with
`cancel_future_jobs`, `_name_next_shard`, `_process_file`) is not staged and
is modelled from the spec: a shared cancellation flag, a pending-upload list
whose not-yet-started jobs can be cancelled, deterministic shard naming, and
per-file info records.  Threads are resolved into the one observable order
the claim speaks about: flush calls after the flag is set. -/

/-- Per-file record `_process_file` stores into the shard descriptor. -/
structure FileInfo where
  basename : String
  size : Nat
deriving DecidableEq

/-- The shard descriptor appended to `self.shards` (dual_row.py lines
90-98). -/
structure ShardDesc where
  samples : Nat
  raw_data : FileInfo
  zip_data : Option FileInfo
  raw_meta : FileInfo
  zip_meta : Option FileInfo
deriving DecidableEq

/-- Writer state: the shared failure flag (`self.event.is_set()`), the
in-memory shard index, the submitted-but-unstarted upload jobs, the cancelled
jobs, the shard-name counter, and the buffered sample count. -/
structure WriterState where
  compression : Bool
  eventIsSet : Bool
  shards : List ShardDesc
  pending : List String
  cancelled : List String
  shardIdx : Nat
  newSamples : Nat
deriving DecidableEq

/-- Byte-length behaviour of the encoder and compressor:
`encode_dual_shard` yields (data, meta) of these lengths, and compressing a
payload of length `n` yields `zipLen n` bytes. -/
structure WriterEnv where
  dataLen : Nat
  metaLen : Nat
  zipLen : Nat → Nat

/-- Observable effects of one flush: cancelling the pending futures,
encoding a shard, submitting one upload task. -/
inductive WEv where
  | cancelJobs : WEv
  | encode : WEv
  | submit : String → WEv
deriving DecidableEq

/-- Modelled from the spec: `_name_next_shard` (row.py) returns the raw
basename and, when compression is on, the zip basename. -/
def nameNextShard (compression : Bool) (idx : Nat) (tag : String) :
    String × Option String :=
  (toString idx ++ "." ++ tag,
    if compression then some (toString idx ++ "." ++ tag ++ ".zip") else none)

/-- `DualRowWriter.flush_shard` (dual_row.py lines 76-108).  If the shared
failure flag is set: cancel the not-yet-started upload jobs and return —
no encode, no descriptor append, no submission (lines 77-81).  Otherwise:
name the shards, encode, process the data and meta files, append the
descriptor, and submit the two uploads (zip basename when present, else
raw). -/
def flush_shard (env : WriterEnv) (w : WriterState) : WriterState × List WEv :=
  if w.eventIsSet then
    ({ w with pending := [], cancelled := w.cancelled ++ w.pending },
      [WEv.cancelJobs])
  else
    let dataNames := nameNextShard w.compression w.shardIdx "data"
    let metaNames := nameNextShard w.compression w.shardIdx "meta"
    let rawDataInfo : FileInfo := { basename := dataNames.1, size := env.dataLen }
    let zipDataInfo : Option FileInfo :=
      dataNames.2.map fun b => { basename := b, size := env.zipLen env.dataLen }
    let rawMetaInfo : FileInfo := { basename := metaNames.1, size := env.metaLen }
    let zipMetaInfo : Option FileInfo :=
      metaNames.2.map fun b => { basename := b, size := env.zipLen env.metaLen }
    let desc : ShardDesc :=
      { samples := w.newSamples, raw_data := rawDataInfo, zip_data := zipDataInfo,
        raw_meta := rawMetaInfo, zip_meta := zipMetaInfo }
    let up1 := dataNames.2.getD dataNames.1
    let up2 := metaNames.2.getD metaNames.1
    ({ w with
       shards := w.shards ++ [desc],
       pending := w.pending ++ [up1, up2],
       shardIdx := w.shardIdx + 1 },
      [WEv.encode, WEv.submit up1, WEv.submit up2])

/-- `n` consecutive flush calls, with the concatenated effect trace. -/
def flushMany (env : WriterEnv) (w : WriterState) : Nat → WriterState × List WEv
  | 0 => (w, [])
  | n + 1 =>
    match flush_shard env w with
    | (w2, evs) =>
      match flushMany env w2 n with
      | (w3, evs2) => (w3, evs ++ evs2)

/-! ### Concrete example inputs used by witnesses and counterexamples -/

/-- A shard file with no compressed and no canonical phase, raw expected
size 100, download limit 50, keep-spec "raw". -/
def noZipFile : ShardFile :=
  { stream := { download_max_size := some 50,
                safe_keep_phases := { zip := false, raw := true, can := false } },
    zip_phase := none, zip_algo := none,
    raw_phase := { size := some 100 },
    can_algo := none, can_phase := none }

/-- A shard file with a compressed phase of declared size 10 and raw size
20, no canonical phase, no download limit. -/
def zipFile64 : ShardFile :=
  { stream := { download_max_size := none,
                safe_keep_phases := { zip := false, raw := true, can := false } },
    zip_phase := some { size := some 10 }, zip_algo := some "zstd",
    raw_phase := { size := some 20 },
    can_algo := none, can_phase := none }

/-- An environment where every remote object has 100 bytes and both codecs
preserve length. -/
def plainEnv : ShardEnv :=
  { remote := fun _ => some 100, decompressLen := fun n => n, canonLen := fun n => n }

/-- The empty local directory. -/
def emptyFS : FS :=
  { zipF := none, rawF := none, canF := none }

/-- An environment matching `zipFile64`: the remote compressed object has
the declared 10 bytes and decompression expands to the declared 20. -/
def unzipEnv : ShardEnv :=
  { remote := fun _ => some 10, decompressLen := fun _ => 20, canonLen := fun n => n }

/-- A writer whose shared failure flag is set, with two pending uploads. -/
def failedWriter : WriterState :=
  { compression := false, eventIsSet := true, shards := [],
    pending := ["0.data", "0.meta"], cancelled := [], shardIdx := 1,
    newSamples := 7 }

/-- A writer byte-length environment. -/
def plainWriterEnv : WriterEnv :=
  { dataLen := 64, metaLen := 16, zipLen := fun n => n / 2 }

theorem decodeInt32LE_encodeInt32LE (n : Nat) (h : n < 4294967296) :
    decodeInt32LE (encodeInt32LE n) = n := by
  simp only [encodeInt32LE, decodeInt32LE, Fin.val_natCast]
  omega

theorem encodeInt32LE_length (n : Nat) : (encodeInt32LE n).length = 4 := rfl

/-- Round trip on a nonempty list of distinct NUL-free byte strings: unpack
after pack returns exactly the sorted dirnames. -/
theorem unpack_pack_eq_sorted (l : List Bstr) (h0 : l ≠ [])
    (hnul : ∀ s ∈ l, (0 : Byte) ∉ s)
    (hsz : (_pack_locals l).length < 2147483648) :
    _unpack_locals (_pack_locals l) = l.mergeSort bleLex := by
  have hperm : List.Perm (l.mergeSort bleLex) l := List.mergeSort_perm l bleLex
  have henc : (encodeInt32LE (4 + (List.intercalate [0] (l.mergeSort bleLex)).length)).length = 4 :=
    encodeInt32LE_length _
  simp only [_pack_locals, _unpack_locals] at *
  set text := List.intercalate [0] (l.mergeSort bleLex) with htext
  have hlen : (encodeInt32LE (4 + text.length) ++ text).length = 4 + text.length := by
    simp [List.length_append, encodeInt32LE_length]
  have htake4 : (encodeInt32LE (4 + text.length) ++ text).take 4 = encodeInt32LE (4 + text.length) := by
    have := List.take_left (encodeInt32LE (4 + text.length)) text
    rwa [encodeInt32LE_length] at this
  rw [htake4, decodeInt32LE_encodeInt32LE _ (by omega)]
  rw [show (encodeInt32LE (4 + text.length) ++ text).take (4 + text.length)
        = encodeInt32LE (4 + text.length) ++ text from
      List.take_of_length_le (le_of_eq hlen)]
  rw [show (encodeInt32LE (4 + text.length) ++ text).drop 4 = text by
      have := List.drop_left (encodeInt32LE (4 + text.length)) text
      rwa [encodeInt32LE_length] at this]
  rw [htext]
  apply List.splitOn_intercalate
  · intro s hs
    exact hnul s (hperm.mem_iff.mp hs)
  · intro hnil
    exact h0 ((hnil ▸ hperm.symm).eq_nil)

theorem firstDupGo_eq_none (l : List Bstr) :
    ∀ seen : Finset Bstr, firstDupGo l seen = none ↔ l.Nodup ∧ ∀ x ∈ l, x ∉ seen := by
  induction l with
  | nil =>
    intro seen
    simp [firstDupGo]
  | cons d rest ih =>
    intro seen
    by_cases hd : d ∈ seen
    · apply iff_of_false
      · simp [firstDupGo, hd]
      · rintro ⟨-, hall⟩
        exact hall d (List.mem_cons_self d rest) hd
    · rw [show firstDupGo (d :: rest) seen = firstDupGo rest (insert d seen) from by
        simp [firstDupGo, hd]]
      rw [ih (insert d seen)]
      constructor
      · rintro ⟨hnd, hall⟩
        have hdr : d ∉ rest := fun hmem => hall d hmem (Finset.mem_insert_self d seen)
        refine ⟨List.nodup_cons.mpr ⟨hdr, hnd⟩, ?_⟩
        intro x hx
        rcases List.mem_cons.mp hx with h | h
        · exact h ▸ hd
        · exact fun hxs => hall x h (Finset.mem_insert_of_mem hxs)
      · rintro ⟨hnd, hall⟩
        obtain ⟨hdr, hnd2⟩ := List.nodup_cons.mp hnd
        refine ⟨hnd2, ?_⟩
        intro x hx hxm
        rcases Finset.mem_insert.mp hxm with h | h
        · exact hdr (h ▸ hx)
        · exact hall x (List.mem_cons_of_mem d hx) h

theorem firstDup_eq_none_iff (l : List Bstr) : firstDup l = none ↔ l.Nodup := by
  rw [firstDup, firstDupGo_eq_none]
  simp

theorem leaderScanGo_ne_dup (myset : Finset Bstr) (rs : List (List Byte)) :
    ∀ i, (leaderScanGo myset rs i).1 ≠ Except.error PErr.duplicateLocalDir := by
  induction rs with
  | nil =>
    intro i
    by_cases h : i = 1000000 <;> simp [leaderScanGo, h]
  | cons r rest ih =>
    intro i
    by_cases h : ((_unpack_locals r).toFinset ∩ myset).Nonempty <;>
      simp [leaderScanGo, h, ih]

theorem nonLeaderScanGo_ne_dup (myset : Finset Bstr) (rs : List (List Byte)) :
    ∀ i, (nonLeaderScanGo myset rs i).1 ≠ Except.error PErr.duplicateLocalDir := by
  induction rs with
  | nil =>
    intro i
    by_cases h : i = 1000000 <;> simp [nonLeaderScanGo, h]
  | cons r rest ih =>
    intro i
    by_cases h : (_unpack_locals r).toFinset = myset <;>
      simp [nonLeaderScanGo, h, ih]

/-- C1 counterexample: pack-then-unpack of the EMPTY directory set returns
the singleton set containing the empty string, not the empty set: the payload
for the empty set is the empty text, and splitting the empty text on NUL
yields one empty member, just as Python's `''.split('\0') == ['']`. -/
theorem c1_empty_set_counterexample :
    (_unpack_locals (_pack_locals ([] : List Bstr))).toFinset
      ≠ ([] : List Bstr).toFinset := by
  simp only [_pack_locals, List.mergeSort_nil]
  decide

/-- C1 (amended): packing a NONEMPTY set of distinct directory strings none
containing a NUL byte, with the packed record shorter than 2^31 bytes (the
int32 length prefix), and then unpacking, recovers exactly the original set.
The empty set is the one exception: it unpacks to the singleton of the empty
string (see the counterexample). -/
theorem c1_roundtrip_amended (l : List Bstr) (h0 : l ≠ []) (hnd : l.Nodup)
    (hnul : ∀ s ∈ l, (0 : Byte) ∉ s)
    (hsz : (_pack_locals l).length < 2147483648) :
    (_unpack_locals (_pack_locals l)).toFinset = l.toFinset := by
  rw [unpack_pack_eq_sorted l h0 hnul hsz]
  exact List.toFinset_eq_of_perm _ _ (List.mergeSort_perm l bleLex)

/-- C1 witness: the round trip at the concrete two-member set. -/
theorem c1_roundtrip_witness :
    (_unpack_locals (_pack_locals ([[1], [47]] : List Bstr))).toFinset
      = ([[1], [47]] : List Bstr).toFinset := by
  have hsort : ([[1], [47]] : List Bstr).mergeSort bleLex = [[1], [47]] :=
    List.mergeSort_of_sorted (by decide)
  exact c1_roundtrip_amended _ (by decide) (by decide) (by decide)
    (by simp only [_pack_locals, hsort]; decide)

/-- C7: a duplicate directory in the group's own list makes `get_shm_prefix`
fail with the duplicate-directory error before any registration record is
read or created and before any barrier is crossed (registry unchanged, empty
effect trace); with no duplicates the duplicate check passes — the call can
never end in the duplicate-directory error. -/
theorem c7_duplicate_fail_fast (l : List Bstr) (isLeader : Bool) (nr : Nat)
    (di : Bool) (w : ShmWorld) :
    (¬ l.Nodup →
       get_shm_prefix l isLeader nr di w = (.error .duplicateLocalDir, w, [])) ∧
    (l.Nodup →
      ( get_shm_prefix l isLeader nr di w).1 ≠ .error .duplicateLocalDir) := by
  constructor
  · intro hnd
    obtain ⟨d, hd⟩ : ∃ d, firstDup l = some d := by
      cases h : firstDup l with
      | none => exact absurd ((firstDup_eq_none_iff l).mp h) hnd
      | some d => exact ⟨d, rfl⟩
    simp [ get_shm_prefix, hd]
  · intro hnd
    have hfd : firstDup l = none := (firstDup_eq_none_iff l).mpr hnd
    simp only [ get_shm_prefix, hfd]
    cases hL : isLeader with
    | true =>
      simp only [if_pos rfl]
      cases hscan : leaderScanGo l.toFinset (w.regs.take 1000000) 0 with
      | mk out evs =>
        have hne := leaderScanGo_ne_dup l.toFinset (w.regs.take 1000000) 0
        rw [hscan] at hne
        cases out with
        | error e =>
          simpa using hne
        | ok slot =>
          simp
    | false =>
      simp only [Bool.false_eq_true, if_neg, not_false_iff]
      cases hscan : nonLeaderScanGo l.toFinset (w.regs.take 1000000) 0 with
      | mk out evs =>
        have hne := nonLeaderScanGo_ne_dup l.toFinset (w.regs.take 1000000) 0
        rw [hscan] at hne
        cases out with
        | error e =>
          simpa using hne
        | ok slot =>
          simp

theorem nonLeaderScanGo_not_found (myset : Finset Bstr) (rs : List (List Byte)) :
    ∀ i, i + rs.length < 1000000 →
      (∀ j, j < rs.length → (_unpack_locals (rs.getD j [])).toFinset ≠ myset) →
      (nonLeaderScanGo myset rs i).1 = .error .internalError := by
  induction rs with
  | nil =>
    intro i hi _
    have : i ≠ 1000000 := by simpa using Nat.ne_of_lt (by simpa using hi)
    simp [nonLeaderScanGo, this]
  | cons r rest ih =>
    intro i hi hall
    have h0 : ¬ (_unpack_locals r).toFinset = myset := by
      simpa using hall 0 (by simp)
    simp only [nonLeaderScanGo, h0, if_neg, not_false_iff]
    exact ih (i + 1) (by simp only [List.length_cons] at hi; omega)
      (fun j hj => by simpa using hall (j + 1) (by simp only [List.length_cons]; omega))

theorem nonLeaderScanGo_found (myset : Finset Bstr) (rs : List (List Byte)) :
    ∀ i k, k < rs.length →
      (_unpack_locals (rs.getD k [])).toFinset = myset →
      (∀ j, j < k → (_unpack_locals (rs.getD j [])).toFinset ≠ myset) →
      (nonLeaderScanGo myset rs i).1 = .ok (i + k) := by
  induction rs with
  | nil =>
    intro i k hk
    simp at hk
  | cons r rest ih =>
    intro i k hk hmatch hbefore
    cases k with
    | zero =>
      have h0 : (_unpack_locals r).toFinset = myset := by simpa using hmatch
      simp [nonLeaderScanGo, h0]
    | succ k =>
      have h0 : ¬ (_unpack_locals r).toFinset = myset := by
        simpa using hbefore 0 (Nat.succ_pos k)
      simp only [nonLeaderScanGo, h0, if_neg, not_false_iff]
      have hrec := ih (i + 1) k (by simpa using Nat.lt_of_succ_lt_succ hk)
        (by simpa using hmatch)
        (fun j hj => by simpa using hbefore (j + 1) (Nat.succ_lt_succ hj))
      rw [hrec]
      congr 1
      omega

/-- C8: a non-leader participant scans records from slot zero and resolves to
the first slot whose decoded directory set equals its own; if it exhausts the
existing records (fewer than the 10^6 scan bound) without an equal set, the
call fails with the internal error and resolves no prefix. -/
theorem c8_nonleader_first_match (l : List Bstr) (nr : Nat) (di : Bool)
    (w : ShmWorld) (hnd : l.Nodup) (hlen : w.regs.length < 1000000) :
    ((∀ j, j < w.regs.length →
        (_unpack_locals (w.regs.getD j [])).toFinset ≠ l.toFinset) →
      ( get_shm_prefix l false nr di w).1 = .error .internalError) ∧
    (∀ i, i < w.regs.length →
      (_unpack_locals (w.regs.getD i [])).toFinset = l.toFinset →
      (∀ j, j < i → (_unpack_locals (w.regs.getD j [])).toFinset ≠ l.toFinset) →
      ( get_shm_prefix l false nr di w).1 = .ok (prefixStr i, i)) := by
  have hfd : firstDup l = none := (firstDup_eq_none_iff l).mpr hnd
  have htake : w.regs.take 1000000 = w.regs := List.take_of_length_le (le_of_lt hlen)
  constructor
  · intro hall
    have hscan : (nonLeaderScanGo l.toFinset (w.regs.take 1000000) 0).1
        = .error .internalError := by
      rw [htake]
      exact nonLeaderScanGo_not_found l.toFinset w.regs 0 (by omega) hall
    simp only [ get_shm_prefix, hfd]
    cases hs : nonLeaderScanGo l.toFinset (w.regs.take 1000000) 0 with
    | mk out evs =>
      rw [hs] at hscan
      simp only at hscan
      subst hscan
      simp
  · intro i hi hmatch hbefore
    have hscan : (nonLeaderScanGo l.toFinset (w.regs.take 1000000) 0).1
        = .ok (0 + i) := by
      rw [htake]
      exact nonLeaderScanGo_found l.toFinset w.regs 0 i hi hmatch hbefore
    simp only [ get_shm_prefix, hfd]
    cases hs : nonLeaderScanGo l.toFinset (w.regs.take 1000000) 0 with
    | mk out evs =>
      rw [hs] at hscan
      simp only at hscan
      subst hscan
      simp

/-- C8 witness: with two records registered, the non-leader with set
containing the single dirname 0x01 skips the non-matching slot 0 and resolves
slot 1, prefix "000001". -/
theorem c8_nonleader_witness :
    ( get_shm_prefix [[1]] false 1 false
        ⟨[_pack_locals [[2]], _pack_locals [[1]]]⟩).1
      = .ok ("000001", 1) := by
  have hs2 : ([[2]] : List Bstr).mergeSort bleLex = [[2]] :=
    List.mergeSort_of_sorted (by decide)
  have hs1 : ([[1]] : List Bstr).mergeSort bleLex = [[1]] :=
    List.mergeSort_of_sorted (by decide)
  have h := (c8_nonleader_first_match [[1]] 1 false
      ⟨[_pack_locals [[2]], _pack_locals [[1]]]⟩ (by decide) (by decide)).2
      1 (by decide)
      (by simp only [_pack_locals, hs1]; decide)
      (by
        intro j hj
        interval_cases j
        simp only [_pack_locals, hs2]
        decide)
  rw [h]
  have : prefixStr 1 = "000001" := by decide
  rw [this]

/-- C7 witness: a concrete duplicated list fails fast with the registry and
trace untouched, and a concrete duplicate-free list never produces the
duplicate-directory error. -/
theorem c7_duplicate_witness :
    get_shm_prefix [[1], [1]] true 2 false ⟨[]⟩
      = (.error .duplicateLocalDir, ⟨[]⟩, []) ∧
    ( get_shm_prefix [[1], [2]] false 1 false ⟨[]⟩).1
      ≠ .error .duplicateLocalDir :=
  ⟨(c7_duplicate_fail_fast [[1], [1]] true 2 false ⟨[]⟩).1 (by decide),
   (c7_duplicate_fail_fast [[1], [2]] false 1 false ⟨[]⟩).2 (by decide)⟩

theorem FS.get_set_same (fs : FS) (p : PhaseId) (v : Option Nat) :
    (fs.set p v).get p = v := by
  cases p <;> rfl

theorem FS.get_set_other (fs : FS) (p q : PhaseId) (v : Option Nat) (h : q ≠ p) :
    (fs.set p v).get q = fs.get q := by
  cases p <;> cases q <;> simp_all [FS.set, FS.get]

theorem evictPhasesGo_get_of_not_del (f : ShardFile) (dels : PhaseId → Bool)
    (ps : List PhaseId) :
    ∀ fs q, dels q = false →
      ((evictPhasesGo f dels ps fs).2.1).get q = fs.get q := by
  induction ps with
  | nil =>
    intro fs q _
    rfl
  | cons p rest ih =>
    intro fs q hq
    by_cases hd : dels p = true
    · have hqp : q ≠ p := fun e => by rw [e, hd] at hq; exact Bool.noConfusion hq
      cases hph : f.phaseAt p with
      | none => simp [evictPhasesGo, hd, hph, FS.get]
      | some ph =>
        cases hfs : fs.get p with
        | none =>
          simp only [evictPhasesGo, hd, if_pos, hph, ShardFilePhase.evict, hfs]
          rcases hrec : evictPhasesGo f dels rest fs with ⟨out, fs3, tr3⟩
          have := ih fs q hq
          rw [hrec] at this
          simpa using this
        | some s =>
          simp only [evictPhasesGo, hd, if_pos, hph, ShardFilePhase.evict, hfs]
          rcases hrec : evictPhasesGo f dels rest (fs.set p none) with ⟨out, fs3, tr3⟩
          have := ih (fs.set p none) q hq
          rw [hrec] at this
          simpa [FS.get_set_other fs p q none hqp] using this
    · simp only [evictPhasesGo, hd, if_neg, not_false_iff]
      exact ih fs q hq

theorem evictPhasesGo_trace_evict (f : ShardFile) (dels : PhaseId → Bool)
    (ps : List PhaseId) :
    ∀ fs, ∀ ev ∈ (evictPhasesGo f dels ps fs).2.2, ∃ p, ev = SEv.evict p := by
  induction ps with
  | nil =>
    intro fs ev hev
    simp [evictPhasesGo] at hev
  | cons p rest ih =>
    intro fs ev hev
    by_cases hd : dels p = true
    · cases hph : f.phaseAt p with
      | none =>
        simp [evictPhasesGo, hd, hph] at hev
      | some ph =>
        cases hfs : fs.get p with
        | none =>
          simp only [evictPhasesGo, hd, if_pos, hph, ShardFilePhase.evict, hfs] at hev
          rcases hrec : evictPhasesGo f dels rest fs with ⟨out, fs3, tr3⟩
          rw [hrec] at hev
          simp only [List.nil_append] at hev
          have := ih fs ev
          rw [hrec] at this
          exact this hev
        | some s =>
          simp only [evictPhasesGo, hd, if_pos, hph, ShardFilePhase.evict, hfs] at hev
          rcases hrec : evictPhasesGo f dels rest (fs.set p none) with ⟨out, fs3, tr3⟩
          rw [hrec] at hev
          simp only [List.cons_append, List.nil_append, List.mem_cons] at hev
          rcases hev with hev | hev
          · exact ⟨p, hev⟩
          · have := ih (fs.set p none) ev
            rw [hrec] at this
            exact this hev
    · simp only [evictPhasesGo, hd, if_neg, not_false_iff] at hev
      exact ih fs ev hev
theorem evictPhasesGo_get_preserve (f : ShardFile) (dels : PhaseId → Bool)
    (ps : List PhaseId) :
    ∀ fs q, q ∉ ps → ((evictPhasesGo f dels ps fs).2.1).get q = fs.get q := by
  induction ps with
  | nil =>
    intro fs q _
    rfl
  | cons p rest ih =>
    intro fs q hq
    have hqp : q ≠ p := fun e => hq (e ▸ List.mem_cons_self p rest)
    have hqr : q ∉ rest := fun h => hq (List.mem_cons_of_mem p h)
    by_cases hd : dels p = true
    · cases hph : f.phaseAt p with
      | none => simp [evictPhasesGo, hd, hph, FS.get]
      | some ph =>
        cases hfs : fs.get p with
        | none =>
          simp only [evictPhasesGo, hd, if_pos, hph, ShardFilePhase.evict, hfs]
          rcases hrec : evictPhasesGo f dels rest fs with ⟨out, fs3, tr3⟩
          have := ih fs q hqr
          rw [hrec] at this
          simpa using this
        | some s =>
          simp only [evictPhasesGo, hd, if_pos, hph, ShardFilePhase.evict, hfs]
          rcases hrec : evictPhasesGo f dels rest (fs.set p none) with ⟨out, fs3, tr3⟩
          have := ih (fs.set p none) q hqr
          rw [hrec] at this
          simpa [FS.get_set_other fs p q none hqp] using this
    · simp only [evictPhasesGo, hd, if_neg, not_false_iff]
      exact ih fs q hqr

theorem evictPhasesGo_err (f : ShardFile) (dels : PhaseId → Bool)
    (ps : List PhaseId) :
    ∀ fs, (∃ p ∈ ps, dels p = true ∧ f.phaseAt p = none) →
      (evictPhasesGo f dels ps fs).1 = .error .internal := by
  induction ps with
  | nil =>
    intro fs h
    simp at h
  | cons p rest ih =>
    intro fs h
    rcases h with ⟨q, hq, hdq, hnq⟩
    rcases List.mem_cons.mp hq with rfl | hq2
    · simp [evictPhasesGo, hdq, hnq]
    · by_cases hd : dels p = true
      · cases hph : f.phaseAt p with
        | none => simp [evictPhasesGo, hd, hph]
        | some ph =>
          cases hfs : fs.get p with
          | none =>
            simp only [evictPhasesGo, hd, if_pos, hph, ShardFilePhase.evict, hfs]
            rcases hrec : evictPhasesGo f dels rest fs with ⟨out, fs3, tr3⟩
            have hthis := ih fs ⟨q, hq2, hdq, hnq⟩
            rw [hrec] at hthis
            simp only at hthis
            subst hthis
            simp [Except.map]
          | some s =>
            simp only [evictPhasesGo, hd, if_pos, hph, ShardFilePhase.evict, hfs]
            rcases hrec : evictPhasesGo f dels rest (fs.set p none) with ⟨out, fs3, tr3⟩
            have hthis := ih (fs.set p none) ⟨q, hq2, hdq, hnq⟩
            rw [hrec] at hthis
            simp only at hthis
            subst hthis
            simp [Except.map]
      · simp only [evictPhasesGo, hd, if_neg, not_false_iff]
        exact ih fs ⟨q, hq2, hdq, hnq⟩

theorem evictPhasesGo_ok (f : ShardFile) (dels : PhaseId → Bool)
    (ps : List PhaseId) :
    ∀ fs, (∀ p ∈ ps, dels p = true → (f.phaseAt p).isSome) → ps.Nodup →
      (evictPhasesGo f dels ps fs).1
          = .ok (-(((ps.filter fun p => dels p).map
              fun p => ((fs.get p).getD 0 : Int)).sum)) ∧
      ∀ q ∈ ps, dels q = true → ((evictPhasesGo f dels ps fs).2.1).get q = none := by
  induction ps with
  | nil =>
    intro fs _ _
    refine ⟨by simp [evictPhasesGo], ?_⟩
    intro q hq
    simp at hq
  | cons p rest ih =>
    intro fs hconf hnd
    obtain ⟨hpr, hnd2⟩ := List.nodup_cons.mp hnd
    have hrest : ∀ x ∈ rest, dels x = true → (f.phaseAt x).isSome :=
      fun x hx => hconf x (List.mem_cons_of_mem p hx)
    by_cases hd : dels p = true
    · have hsome : (f.phaseAt p).isSome := hconf p (List.mem_cons_self p rest) hd
      cases hph : f.phaseAt p with
      | none => rw [hph] at hsome; exact absurd hsome (by simp)
      | some ph =>
        cases hfs : fs.get p with
        | none =>
          simp only [evictPhasesGo, hd, if_pos, hph, ShardFilePhase.evict, hfs]
          rcases hrec : evictPhasesGo f dels rest fs with ⟨out, fs3, tr3⟩
          obtain ⟨hout, hget⟩ := ih fs hrest hnd2
          rw [hrec] at hout hget
          simp only at hout
          subst hout
          constructor
          · simp [Except.map, List.filter_cons, hd, hfs]
          · intro q hq hdq
            rcases List.mem_cons.mp hq with rfl | hq2
            · have hpres := evictPhasesGo_get_preserve f dels rest fs q hpr
              rw [hrec] at hpres
              simpa [hfs] using hpres
            · simpa using hget q hq2 hdq
        | some s =>
          simp only [evictPhasesGo, hd, if_pos, hph, ShardFilePhase.evict, hfs]
          rcases hrec : evictPhasesGo f dels rest (fs.set p none) with ⟨out, fs3, tr3⟩
          obtain ⟨hout, hget⟩ := ih (fs.set p none) hrest hnd2
          rw [hrec] at hout hget
          simp only at hout
          subst hout
          constructor
          · have hmap : ((rest.filter fun x => dels x).map
                fun q => (((fs.set p none).get q).getD 0 : Int))
                = ((rest.filter fun x => dels x).map
                    fun q => ((fs.get q).getD 0 : Int)) := by
              apply List.map_congr_left
              intro x hx
              have hxr : x ∈ rest := List.mem_of_mem_filter hx
              have hxp : x ≠ p := fun e => hpr (e ▸ hxr)
              rw [FS.get_set_other fs p x none hxp]
            simp only [Except.map, List.filter_cons, hd, if_pos, List.map_cons,
              List.sum_cons, hmap, hfs, Option.getD_some]
            congr 1
            push_cast
            ring
          · intro q hq hdq
            rcases List.mem_cons.mp hq with rfl | hq2
            · have hpres := evictPhasesGo_get_preserve f dels rest (fs.set q none) q hpr
              rw [hrec] at hpres
              simpa [FS.get_set_same] using hpres
            · simpa using hget q hq2 hdq
    · simp only [evictPhasesGo, hd, if_neg, not_false_iff]
      obtain ⟨hout, hget⟩ := ih fs hrest hnd2
      refine ⟨by simpa [List.filter_cons, hd] using hout, ?_⟩
      intro q hq hdq
      rcases List.mem_cons.mp hq with rfl | hq2
      · rw [hdq] at hd; exact absurd rfl hd
      · exact hget q hq2 hdq

/-- C6: `evict_phases` fails with the internal-consistency error when some
flagged slot is unconfigured; otherwise it deletes exactly the flagged
phases and returns the non-positive sum of the per-phase eviction deltas. -/
theorem c6_evict_phases (f : ShardFile) (dels : PhaseId → Bool) (fs : FS) :
    ((∃ p, dels p = true ∧ f.phaseAt p = none) →
      (ShardFile.evict_phases f dels fs).1 = .error .internal) ∧
    ((∀ p, dels p = true → (f.phaseAt p).isSome) →
      (ShardFile.evict_phases f dels fs).1
          = .ok (-((if dels .zip then ((fs.get .zip).getD 0 : Int) else 0)
              + ((if dels .raw then ((fs.get .raw).getD 0 : Int) else 0)
                + (if dels .can then ((fs.get .can).getD 0 : Int) else 0)))) ∧
      (-((if dels .zip then ((fs.get .zip).getD 0 : Int) else 0)
          + ((if dels .raw then ((fs.get .raw).getD 0 : Int) else 0)
            + (if dels .can then ((fs.get .can).getD 0 : Int) else 0)))) ≤ 0 ∧
      ∀ p, ((ShardFile.evict_phases f dels fs).2.1).get p
          = if dels p = true then none else fs.get p) := by
  constructor
  · rintro ⟨p, hdp, hnp⟩
    exact evictPhasesGo_err f dels [PhaseId.zip, PhaseId.raw, PhaseId.can] fs
      ⟨p, by cases p <;> simp, hdp, hnp⟩
  · intro hconf
    obtain ⟨hout, hget⟩ :=
      evictPhasesGo_ok f dels [PhaseId.zip, PhaseId.raw, PhaseId.can] fs
        (fun p _ h => hconf p h) (by simp)
    refine ⟨?_, ?_, ?_⟩
    · rw [ShardFile.evict_phases, hout]
      congr 1
      cases hz : dels PhaseId.zip <;> cases hr : dels PhaseId.raw <;>
        cases hc : dels PhaseId.can <;>
          simp [List.filter_cons, hz, hr, hc]
    · cases hz : dels PhaseId.zip <;> cases hr : dels PhaseId.raw <;>
        cases hc : dels PhaseId.can <;> simp [hz, hr, hc] <;> omega
    · intro p
      by_cases hdp : dels p = true
      · rw [if_pos hdp]
        exact hget p (by cases p <;> simp) hdp
      · rw [if_neg hdp]
        have hdf : dels p = false := by
          revert hdp
          cases dels p <;> simp
        exact evictPhasesGo_get_of_not_del f dels
          [PhaseId.zip, PhaseId.raw, PhaseId.can] fs p hdf

/-- C6 witness: flagging only the configured zip phase on a directory where
it holds 5 bytes deletes exactly that phase and returns -5. -/
theorem c6_evict_phases_witness :
    (ShardFile.evict_phases zipFile64
        (fun p => match p with | PhaseId.zip => true | _ => false)
        { zipF := some 5, rawF := some 20, canF := none }).1 = .ok (-5) ∧
    ((ShardFile.evict_phases zipFile64
        (fun p => match p with | PhaseId.zip => true | _ => false)
        { zipF := some 5, rawF := some 20, canF := none }).2.1).get PhaseId.zip
      = none ∧
    ((ShardFile.evict_phases zipFile64
        (fun p => match p with | PhaseId.zip => true | _ => false)
        { zipF := some 5, rawF := some 20, canF := none }).2.1).get PhaseId.raw
      = some 20 := by
  have h := (c6_evict_phases zipFile64
      (fun p => match p with | PhaseId.zip => true | _ => false)
      { zipF := some 5, rawF := some 20, canF := none }).2
    (by intro p hp; cases p <;> simp_all [zipFile64, ShardFile.phaseAt])
  refine ⟨h.1.trans (congrArg Except.ok (by decide)), ?_, ?_⟩
  · simpa using h.2.2 PhaseId.zip
  · simpa using h.2.2 PhaseId.raw

/-- C10: in `init_dir`, a configured phase is classified LOCAL iff its
per-phase contribution is nonzero; a configured phase reporting 0 bytes
(absent, or a present zero-byte file) is classified REMOTE and is never
flagged for deletion by the subsequently applied eviction policy. -/
theorem c10_zero_contribution_remote (f : ShardFile) (fs : FS) (p : PhaseId)
    (ph : ShardFilePhase) (hconf : f.phaseAt p = some ph) :
    (f.initLoc fs p = .LOCAL ↔ ph.init_dir fs p ≠ 0) ∧
    (ph.init_dir fs p = 0 →
      f.initLoc fs p = .REMOTE ∧
      get_phase_deletions f.stream.safe_keep_phases (f.initLoc fs) p = false) := by
  constructor
  · rw [ShardFile.initLoc, hconf]
    by_cases h : ph.init_dir fs p = 0
    · simp [h]
    · simp [h]
  · intro h0
    have hrem : f.initLoc fs p = .REMOTE := by
      rw [ShardFile.initLoc, hconf]
      simp [h0]
    refine ⟨hrem, ?_⟩
    simp [get_phase_deletions, hrem]

/-- C10 witness: a present zero-byte raw file is REMOTE and unflagged. -/
theorem c10_zero_witness :
    noZipFile.initLoc { zipF := none, rawF := some 0, canF := none } PhaseId.raw
        = Locality.REMOTE ∧
    get_phase_deletions noZipFile.stream.safe_keep_phases
        (noZipFile.initLoc { zipF := none, rawF := some 0, canF := none })
        PhaseId.raw = false :=
  (c10_zero_contribution_remote noZipFile
      { zipF := none, rawF := some 0, canF := none } PhaseId.raw
      noZipFile.raw_phase rfl).2 rfl

/-- C5 at the failing input: with a 50-byte download limit and no compressed
phase configured, `validate` succeeds although the first configured phase
(raw, expected 100 bytes) exceeds the limit — that phase's own
`validate_for_download` fails.  The `break` of file.py line 106 sits outside
the `if phase:` guard, so only the (absent) zip slot is ever examined. -/
theorem c5_validate_skips_first_phase :
    ShardFile.validate noZipFile = .ok () ∧
    noZipFile.stream.download_max_size = some 50 ∧
    noZipFile.raw_phase.size = some 100 ∧
    ShardFilePhase.validate_for_download noZipFile.raw_phase
        noZipFile.stream.download_max_size = .error .sizeLimitExceeded :=
  ⟨rfl, rfl, rfl, rfl⟩

/-- C4: when the local compressed file's length differs from the declared
compressed size (raw phase absent, terminal phase not yet local), `load`
fails with the size-mismatch `ValueError` before anything is written: the
directory is unchanged, no events fire, and the raw phase stays absent. -/
theorem c4_zip_size_mismatch (f : ShardFile) (env : ShardEnv) (fs : FS)
    (zp : ShardFilePhase) (n m : Nat)
    (hzp : f.zip_phase = some zp)
    (hraw : fs.get .raw = none)
    (hcan : fs.get .can = none)
    (hzip : fs.get .zip = some n)
    (hm : zp.size = some m)
    (hne : n ≠ m) :
    ShardFile.load f env fs = (.error .sizeMismatch, fs, []) ∧
    ((ShardFile.load f env fs).2.1).get .raw = none := by
  have hunzip : ShardFile._unzip f env fs = (.error .sizeMismatch, fs, []) := by
    rw [ShardFile._unzip, hzp]
    have : ¬ zp.size = some n := by
      rw [hm]
      simp [Ne.symm hne]
    simp [hzip, this]
  have h1 : f.raw_phase.is_local fs .raw = false := by
    simp [ShardFilePhase.is_local, hraw]
  have h2 : zp.is_local fs .zip = true := by
    simp [ShardFilePhase.is_local, hzip]
  have hlr : ShardFile._load_raw f env fs = (.error .sizeMismatch, fs, []) := by
    rw [ShardFile._load_raw]
    simp [h1, hzp, h2, hunzip]
  have hload : ShardFile.load f env fs = (.error .sizeMismatch, fs, []) := by
    rw [ShardFile.load]
    cases hcp : f.can_phase with
    | none => simpa using hlr
    | some cp =>
      have h3 : cp.is_local fs .can = false := by
        simp [ShardFilePhase.is_local, hcan]
      simp [h3, hlr]
  exact ⟨hload, by rw [hload]; exact hraw⟩

/-- C4 witness: a 9-byte local compressed file against a declared size of
10 makes `load` fail and leaves the directory untouched. -/
theorem c4_zip_size_mismatch_witness :
    ShardFile.load zipFile64 plainEnv { zipF := some 9, rawF := none, canF := none }
      = (.error .sizeMismatch, { zipF := some 9, rawF := none, canF := none }, []) :=
  (c4_zip_size_mismatch zipFile64 plainEnv
    { zipF := some 9, rawF := none, canF := none } { size := some 10 } 9 10
    rfl rfl rfl rfl rfl (by decide)).1

/-- C2 counterexample: loading a file with no compressed and no canonical
phase performs the raw download — a phase transition — and returns with no
eviction-policy application at all: the trace holds only the download
event.  So the policy is not invoked after every transition. -/
theorem c2_download_no_policy_counterexample :
    ShardFile.load noZipFile plainEnv emptyFS
      = (.ok 100, { zipF := none, rawF := some 100, canF := none },
          [SEv.download PhaseId.raw]) ∧
    SEv.policy ∉ (ShardFile.load noZipFile plainEnv emptyFS).2.2 := by
  constructor
  · rfl
  · decide

theorem evict_phases_trace (f : ShardFile) (dels : PhaseId → Bool) (fs : FS) :
    ∀ ev ∈ (ShardFile.evict_phases f dels fs).2.2, ∃ p, ev = SEv.evict p :=
  evictPhasesGo_trace_evict f dels _ fs

theorem evict_phases_trace_of {res : SRes}
    (h : ∃ f dels fs, ShardFile.evict_phases f dels fs = res) :
    ∀ ev ∈ res.2.2, ∃ p, ev = SEv.evict p := by
  obtain ⟨f, dels, fs, rfl⟩ := h
  exact evict_phases_trace f dels fs

theorem evict_phases_get_of {f : ShardFile} {dels : PhaseId → Bool} {fs : FS}
    {res : SRes} (h : ShardFile.evict_phases f dels fs = res) (q : PhaseId)
    (hq : dels q = false) : (res.2.1).get q = fs.get q := by
  subst h
  exact evictPhasesGo_get_of_not_del f dels _ fs q hq

theorem dels_can_false (k : KeepSpec) (locs : PhaseId → Locality) :
    get_phase_deletions k locs .can = false := by
  simp [get_phase_deletions, phasesAfter]

theorem dels_raw_false_of_can_not_local (k : KeepSpec) (locs : PhaseId → Locality)
    (h : locs .can ≠ .LOCAL) : get_phase_deletions k locs .raw = false := by
  have hb : (locs PhaseId.can == Locality.LOCAL) = false := by
    simp [h]
  simp [get_phase_deletions, phasesAfter, hb]

theorem policyFollows_evicts_append (e l : List SEv)
    (he : ∀ ev ∈ e, ∃ p, ev = SEv.evict p) :
    policyFollows (e ++ l) = policyFollows l := by
  induction e with
  | nil => rfl
  | cons ev rest ih =>
    obtain ⟨p, rfl⟩ := he ev (List.mem_cons_self ev rest)
    simp only [List.cons_append, policyFollows]
    exact ih fun x hx => he x (List.mem_cons_of_mem _ hx)

theorem policyFollows_evicts (e : List SEv)
    (he : ∀ ev ∈ e, ∃ p, ev = SEv.evict p) : policyFollows e = true := by
  have h := policyFollows_evicts_append e [] he
  simpa using h

theorem downloadPhase_ok_shape (ph : ShardFilePhase) (p : PhaseId)
    (env : ShardEnv) (fs : FS) (d : Int) (fs2 : FS) (tr : List SEv)
    (h : ph.download p env fs = (.ok d, fs2, tr)) :
    tr = [SEv.download p] ∧ ∃ n, fs2 = fs.set p (some n) := by
  rw [ShardFilePhase.download] at h
  split at h
  · exact absurd h (by simp)
  · split at h
    · split at h
      · simp only [Prod.mk.injEq] at h
        exact ⟨h.2.2.symm, _, h.2.1.symm⟩
      · exact absurd h (by simp)
    · simp only [Prod.mk.injEq] at h
      exact ⟨h.2.2.symm, _, h.2.1.symm⟩

theorem unzip_ok_shape (f : ShardFile) (env : ShardEnv) (fs : FS) (d : Int)
    (fs2 : FS) (tr : List SEv)
    (h : ShardFile._unzip f env fs = (.ok d, fs2, tr)) :
    ∃ e, tr = SEv.unzip :: SEv.policy :: e ∧ ∀ ev ∈ e, ∃ p, ev = SEv.evict p := by
  rw [ShardFile._unzip] at h
  split at h
  · exact absurd h (by simp)
  · split at h
    · exact absurd h (by simp)
    · split at h
      · split at h
        · split at h
          next out fs3 tr3 hev =>
            simp only [Prod.mk.injEq] at h
            refine ⟨tr3, h.2.2.symm, ?_⟩
            intro ev hmem
            exact evict_phases_trace_of ⟨f, _, _, hev⟩ ev hmem
        · exact absurd h (by simp)
      · exact absurd h (by simp)

theorem canonicalize_ok_shape (f : ShardFile) (env : ShardEnv) (fs : FS)
    (d : Int) (fs2 : FS) (tr : List SEv)
    (h : ShardFile._canonicalize f env fs = (.ok d, fs2, tr)) :
    ∃ e, tr = SEv.canon :: SEv.policy :: e ∧ ∀ ev ∈ e, ∃ p, ev = SEv.evict p := by
  rw [ShardFile._canonicalize] at h
  split at h
  · split at h
    · exact absurd h (by simp)
    · split at h
      · split at h
        next out fs3 tr3 hev =>
          simp only [Prod.mk.injEq] at h
          refine ⟨tr3, h.2.2.symm, ?_⟩
          intro ev hmem
          exact evict_phases_trace_of ⟨f, _, _, hev⟩ ev hmem
      · exact absurd h (by simp)
  · exact absurd h (by simp)

theorem policyFollows_canon_policy (l : List SEv) :
    policyFollows (SEv.canon :: SEv.policy :: l) = policyFollows l := rfl

theorem policyFollows_unzip_policy (l : List SEv) :
    policyFollows (SEv.unzip :: SEv.policy :: l) = policyFollows l := rfl

theorem policyFollows_download (p : PhaseId) (l : List SEv) :
    policyFollows (SEv.download p :: l) = policyFollows l := rfl

theorem load_raw_ok_shape (f : ShardFile) (env : ShardEnv) (fs : FS) (d : Int)
    (fs2 : FS) (tr : List SEv)
    (h : ShardFile._load_raw f env fs = (.ok d, fs2, tr)) :
    tr = [] ∨ tr = [SEv.download PhaseId.raw] ∨
    (∃ e, tr = SEv.unzip :: SEv.policy :: e ∧ ∀ ev ∈ e, ∃ p, ev = SEv.evict p) ∨
    (∃ e, tr = SEv.download PhaseId.zip :: SEv.unzip :: SEv.policy :: e ∧
      ∀ ev ∈ e, ∃ p, ev = SEv.evict p) := by
  rw [ShardFile._load_raw] at h
  split at h
  · simp only [Prod.mk.injEq] at h
    exact Or.inl h.2.2.symm
  · split at h
    next zp hzp =>
      split at h
      · exact Or.inr (Or.inr (Or.inl (unzip_ok_shape f env fs d fs2 tr h)))
      · split at h
        next e fsa tra hdl =>
          exact absurd h (by simp)
        next d1 fsa tra hdl =>
          split at h
          next out fs3 tr2 hu =>
            simp only [Prod.mk.injEq] at h
            obtain ⟨htr, -⟩ := downloadPhase_ok_shape zp .zip env fs d1 fsa tra hdl
            cases out with
            | error e => simp [Except.map] at h
            | ok d2 =>
              obtain ⟨e2, htr2, he2⟩ := unzip_ok_shape f env fsa d2 fs3 tr2 hu
              refine Or.inr (Or.inr (Or.inr ⟨e2, ?_, he2⟩))
              rw [← h.2.2, htr, htr2]
              simp
    next =>
      obtain ⟨htr, -⟩ := downloadPhase_ok_shape f.raw_phase .raw env fs d fs2 tr h
      exact Or.inr (Or.inl htr)

/-- C2 (amended): in every successful `load`, each decompression and each
canonicalization is immediately followed by an eviction-policy application
(on the recomputed localities of all three phases, whose flagged deletions
are the events that follow); a bare download — the other transition —
completes without any policy application, as the counterexample shows. -/
theorem c2_policy_after_each_codec_step (f : ShardFile) (env : ShardEnv)
    (fs : FS) (d : Int) (fs2 : FS) (tr : List SEv)
    (h : ShardFile.load f env fs = (.ok d, fs2, tr)) :
    policyFollows tr = true := by
  rw [ShardFile.load] at h
  split at h
  next cp hcp =>
    split at h
    · simp only [Prod.mk.injEq] at h
      rw [← h.2.2]
      rfl
    · split at h
      next e fsa tra hlr => exact absurd h (by simp)
      next d1 fsa tra hlr =>
        split at h
        next out fs3 tr2 hc =>
          simp only [Prod.mk.injEq] at h
          cases out with
          | error e => simp [Except.map] at h
          | ok d2 =>
            obtain ⟨e2, htr2, he2⟩ := canonicalize_ok_shape f env fsa d2 fs3 tr2 hc
            have hshape := load_raw_ok_shape f env fs d1 fsa tra hlr
            rw [← h.2.2, htr2]
            rcases hshape with rfl | rfl | ⟨e1, rfl, he1⟩ | ⟨e1, rfl, he1⟩
            · rw [List.nil_append, policyFollows_canon_policy]
              exact policyFollows_evicts e2 he2
            · rw [List.cons_append, List.nil_append, policyFollows_download,
                policyFollows_canon_policy]
              exact policyFollows_evicts e2 he2
            · simp only [List.cons_append]
              rw [policyFollows_unzip_policy,
                policyFollows_evicts_append e1 _ he1, policyFollows_canon_policy]
              exact policyFollows_evicts e2 he2
            · simp only [List.cons_append]
              rw [policyFollows_download, policyFollows_unzip_policy,
                policyFollows_evicts_append e1 _ he1, policyFollows_canon_policy]
              exact policyFollows_evicts e2 he2
  next hcp =>
    have hshape := load_raw_ok_shape f env fs d fs2 tr h
    rcases hshape with rfl | rfl | ⟨e1, rfl, he1⟩ | ⟨e1, rfl, he1⟩
    · rfl
    · rfl
    · rw [policyFollows_unzip_policy]
      exact policyFollows_evicts e1 he1
    · rw [policyFollows_download, policyFollows_unzip_policy]
      exact policyFollows_evicts e1 he1

/-- C2 witness: a concrete successful zip-download-then-decompress load whose
trace is download, decompress, policy, eviction of the spent zip phase. -/
theorem c2_policy_witness :
    policyFollows (ShardFile.load zipFile64 unzipEnv emptyFS).2.2 = true := by
  have h : ShardFile.load zipFile64 unzipEnv emptyFS
      = (.ok 20, { zipF := none, rawF := some 20, canF := none },
          [SEv.download PhaseId.zip, SEv.unzip, SEv.policy,
            SEv.evict PhaseId.zip]) := by
    rfl
  exact c2_policy_after_each_codec_step zipFile64 unzipEnv emptyFS 20 _ _ h

theorem canonicalize_ok_state (f : ShardFile) (env : ShardEnv) (fs : FS)
    (d : Int) (fs2 : FS) (tr : List SEv)
    (h : ShardFile._canonicalize f env fs = (.ok d, fs2, tr)) :
    (fs2.get PhaseId.can).isSome := by
  rw [ShardFile._canonicalize] at h
  split at h
  · split at h
    · exact absurd h (by simp)
    · split at h
      · split at h
        next out fs3 tr3 hev =>
          simp only [Prod.mk.injEq] at h
          rw [← h.2.1]
          have hget := evict_phases_get_of hev PhaseId.can (dels_can_false _ _)
          simp only [FS.get_set_same] at hget
          simp [hget]
      · exact absurd h (by simp)
  · exact absurd h (by simp)

theorem unzip_ok_state (f : ShardFile) (env : ShardEnv) (fs : FS)
    (d : Int) (fs2 : FS) (tr : List SEv)
    (h : ShardFile._unzip f env fs = (.ok d, fs2, tr))
    (hcan : f.can_phase = none ∨ fs.get PhaseId.can = none) :
    (fs2.get PhaseId.raw).isSome := by
  rw [ShardFile._unzip] at h
  split at h
  · exact absurd h (by simp)
  · split at h
    · exact absurd h (by simp)
    next zlen hzlen =>
      split at h
      next hsz =>
        split at h
        next hrs =>
          split at h
          next out fs3 tr3 hev =>
            simp only [Prod.mk.injEq] at h
            rw [← h.2.1]
            have hfsbcan : (fs.set PhaseId.raw (some (env.decompressLen zlen))).get
                PhaseId.can = fs.get PhaseId.can :=
              FS.get_set_other fs _ _ _ (by decide)
            have hne : unzipLocs f
                (fs.set PhaseId.raw (some (env.decompressLen zlen))) PhaseId.can
                ≠ Locality.LOCAL := by
              rcases hcan with hcp | hfs
              · simp [unzipLocs, hcp]
              · cases hcp2 : f.can_phase with
                | none => simp [unzipLocs, hcp2]
                | some cp =>
                  simp [unzipLocs, hcp2, ShardFilePhase.is_local, hfsbcan, hfs]
            have hdels := dels_raw_false_of_can_not_local
              f.stream.safe_keep_phases _ hne
            have hget : fs3.get PhaseId.raw = some (env.decompressLen zlen) := by
              simpa [FS.get_set_same] using
                evict_phases_get_of hev PhaseId.raw hdels
            rw [hget]
            rfl
        next => exact absurd h (by simp)
      next => exact absurd h (by simp)

theorem load_raw_ok_state (f : ShardFile) (env : ShardEnv) (fs : FS)
    (d : Int) (fs2 : FS) (tr : List SEv)
    (h : ShardFile._load_raw f env fs = (.ok d, fs2, tr))
    (hcan : f.can_phase = none ∨ fs.get PhaseId.can = none) :
    (fs2.get PhaseId.raw).isSome := by
  rw [ShardFile._load_raw] at h
  split at h
  next hloc =>
    simp only [Prod.mk.injEq] at h
    rw [← h.2.1]
    simpa [ShardFilePhase.is_local] using hloc
  next hloc =>
    split at h
    next zp hzp =>
      split at h
      next hziploc =>
        exact unzip_ok_state f env fs d fs2 tr h hcan
      next hziploc =>
        split at h
        next e fsa tra hdl => exact absurd h (by simp)
        next d1 fsa tra hdl =>
          split at h
          next out fs3 tr2 hu =>
            simp only [Prod.mk.injEq] at h
            cases out with
            | error e => simp [Except.map] at h
            | ok d2 =>
              obtain ⟨-, n, rfl⟩ := downloadPhase_ok_shape zp .zip env fs d1 fsa tra hdl
              have hcan2 : f.can_phase = none ∨
                  (fs.set PhaseId.zip (some n)).get PhaseId.can = none := by
                rcases hcan with hcp | hfs
                · exact Or.inl hcp
                · right
                  rw [FS.get_set_other fs _ _ _ (by decide)]
                  exact hfs
              have hloc2 := unzip_ok_state f env _ d2 fs3 tr2 hu hcan2
              rw [← h.2.1]
              exact hloc2
    next hzp =>
      obtain ⟨-, n, rfl⟩ := downloadPhase_ok_shape f.raw_phase .raw env fs d fs2 tr h
      rw [FS.get_set_same]
      rfl

theorem load_ok_terminal (f : ShardFile) (env : ShardEnv) (fs : FS)
    (d : Int) (fs2 : FS) (tr : List SEv)
    (h : ShardFile.load f env fs = (.ok d, fs2, tr)) :
    (match f.can_phase with
      | some _ => (fs2.get PhaseId.can).isSome
      | none => (fs2.get PhaseId.raw).isSome) = true := by
  rw [ShardFile.load] at h
  split at h
  next cp hcp =>
    show (fs2.get PhaseId.can).isSome = true
    split at h
    next hloc =>
      simp only [Prod.mk.injEq] at h
      rw [← h.2.1]
      simpa [ShardFilePhase.is_local] using hloc
    next hloc =>
      split at h
      next e fsa tra hlr => exact absurd h (by simp)
      next d1 fsa tra hlr =>
        split at h
        next out fs3 tr2 hc =>
          simp only [Prod.mk.injEq] at h
          cases out with
          | error e => simp [Except.map] at h
          | ok d2 =>
            rw [← h.2.1]
            exact canonicalize_ok_state f env fsa d2 fs3 tr2 hc
  next hcp =>
    show (fs2.get PhaseId.raw).isSome = true
    exact load_raw_ok_state f env fs d fs2 tr h (Or.inl hcp)

theorem load_of_terminal_local (f : ShardFile) (env : ShardEnv) (fs : FS)
    (hterm : (match f.can_phase with
      | some _ => (fs.get PhaseId.can).isSome
      | none => (fs.get PhaseId.raw).isSome) = true) :
    ShardFile.load f env fs = (.ok 0, fs, []) := by
  cases hcp : f.can_phase with
  | some cp =>
    rw [hcp] at hterm
    rw [ShardFile.load, hcp]
    have hloc : cp.is_local fs PhaseId.can = true := by
      simpa [ShardFilePhase.is_local] using hterm
    simp [hloc]
  | none =>
    rw [hcp] at hterm
    rw [ShardFile.load, hcp]
    rw [ShardFile._load_raw]
    have hloc : f.raw_phase.is_local fs PhaseId.raw = true := by
      simpa [ShardFilePhase.is_local] using hterm
    simp [hloc]

/-- C3: when the terminal configured phase (canonical if configured, else
raw) is already local, `load` is a no-op — no download, decompression,
canonicalization or eviction happens (empty trace), the directory is
untouched and the delta is 0; consequently a second `load` right after any
successful `load` returns 0 with no I/O. -/
theorem c3_load_idempotent (f : ShardFile) (env : ShardEnv) (fs fs2 : FS)
    (d : Int) (tr : List SEv) :
    ((match f.can_phase with
      | some _ => (fs.get PhaseId.can).isSome
      | none => (fs.get PhaseId.raw).isSome) = true →
      ShardFile.load f env fs = (.ok 0, fs, [])) ∧
    (ShardFile.load f env fs = (.ok d, fs2, tr) →
      ShardFile.load f env fs2 = (.ok 0, fs2, [])) :=
  ⟨load_of_terminal_local f env fs,
   fun h => load_of_terminal_local f env fs2 (load_ok_terminal f env fs d fs2 tr h)⟩

/-- C3 witness: a terminal-local file no-ops, and a second load right after
a successful first load returns 0. -/
theorem c3_load_idempotent_witness :
    ShardFile.load noZipFile plainEnv { zipF := none, rawF := some 100, canF := none }
      = (.ok 0, { zipF := none, rawF := some 100, canF := none }, []) ∧
    ShardFile.load noZipFile plainEnv
        (ShardFile.load noZipFile plainEnv emptyFS).2.1
      = (.ok 0, (ShardFile.load noZipFile plainEnv emptyFS).2.1, []) := by
  constructor
  · exact (c3_load_idempotent noZipFile plainEnv
      { zipF := none, rawF := some 100, canF := none } emptyFS 0 []).1 (by decide)
  · exact (c3_load_idempotent noZipFile plainEnv emptyFS
      (ShardFile.load noZipFile plainEnv emptyFS).2.1 100
      [SEv.download PhaseId.raw]).2 (by rfl)

theorem flushMany_after_failure (env : WriterEnv) :
    ∀ n (w : WriterState), w.eventIsSet = true →
      (flushMany env w n).1.shards = w.shards ∧
      (flushMany env w n).2 = List.replicate n WEv.cancelJobs := by
  intro n
  induction n with
  | zero =>
    intro w _
    exact ⟨rfl, rfl⟩
  | succ n ih =>
    intro w h
    have hstep : flush_shard env w
        = ({ w with pending := [], cancelled := w.cancelled ++ w.pending },
           [WEv.cancelJobs]) := by
      simp [flush_shard, h]
    obtain ⟨ih1, ih2⟩ :=
      ih { w with pending := [], cancelled := w.cancelled ++ w.pending } h
    rcases hrec : flushMany env
        { w with pending := [], cancelled := w.cancelled ++ w.pending } n
      with ⟨w3, evs2⟩
    rw [hrec] at ih1 ih2
    replace ih1 : w3.shards = w.shards := ih1
    replace ih2 : evs2 = List.replicate n WEv.cancelJobs := ih2
    simp only [flushMany, hstep, hrec]
    exact ⟨by simpa using ih1, by simp [ih2, List.replicate_succ]⟩

/-- C9: once an upload failure has set the shared cancellation flag, a flush
cancels the not-yet-started uploads and returns — no shard is encoded, no
descriptor is appended, no upload task is submitted; and over any number of
subsequent flushes the shard index never grows and the only effect is the
cancellation, so no later shard's uploads are ever dispatched. -/
theorem c9_flush_after_failure (env : WriterEnv) (w : WriterState)
    (h : w.eventIsSet = true) :
    flush_shard env w
        = ({ w with pending := [], cancelled := w.cancelled ++ w.pending },
           [WEv.cancelJobs]) ∧
    ∀ n, (flushMany env w n).1.shards = w.shards ∧
      (flushMany env w n).2 = List.replicate n WEv.cancelJobs :=
  ⟨by simp [flush_shard, h], fun n => flushMany_after_failure env n w h⟩

/-- C9 witness: three flushes after the failure flag is set leave the shard
index empty and emit only cancellations. -/
theorem c9_flush_witness :
    flush_shard plainWriterEnv failedWriter
      = ({ failedWriter with pending := [], cancelled := ["0.data", "0.meta"] },
         [WEv.cancelJobs]) ∧
    (flushMany plainWriterEnv failedWriter 3).1.shards = [] ∧
    (flushMany plainWriterEnv failedWriter 3).2
      = [WEv.cancelJobs, WEv.cancelJobs, WEv.cancelJobs] := by
  have h := c9_flush_after_failure plainWriterEnv failedWriter rfl
  refine ⟨h.1.trans (by decide), ?_, ?_⟩
  · exact ((h.2 3).1).trans rfl
  · exact ((h.2 3).2).trans rfl
